import Mathlib

/-! semvertag: tag discovery, next-version computation and tag naming

A shallow embedding of the Go program `frairon/semvertag`
(`semvertag.go` and `cmd/semvertag/main.go`) together with the parts of its
dependencies that the program calls (`strings`, `strconv`, `sort`,
`github.com/blang/semver`, `go-git`), followed by theorems about them.

Conventions of the embedding:
* a Go `string` is a list of characters (`GoString`);
* a `uint64` is a `Nat` below `2^64`, increments are taken modulo `2^64`;
* a `time.Time` instant is an `Int`, `Before` is `<`;
* a Go `error` result is `Option`/`Except`, `log.Fatalf` is an `Except.error`.
-/

namespace Semvertag

/-- Go strings, as lists of characters. -/
abbrev GoString := List Char

/-! ## Package `strings` -/

namespace strings

/-- Go `strings.HasPrefix`. -/
def HasPrefix (s p : GoString) : Bool := p.isPrefixOf s

/-- Go `strings.TrimPrefix`: `s` without the leading `p`, or `s` itself. -/
def TrimPrefix (s p : GoString) : GoString :=
  if HasPrefix s p then s.drop p.length else s

/-- Go `unicode.IsSpace`. -/
def IsSpace (c : Char) : Bool :=
  c = '\t' || c = '\n' || c.toNat = 0x0B || c.toNat = 0x0C || c = '\r' || c = ' '
    || c.toNat = 0x85 || c.toNat = 0xA0 || c.toNat = 0x1680
    || (0x2000 ≤ c.toNat && c.toNat ≤ 0x200A)
    || c.toNat = 0x2028 || c.toNat = 0x2029 || c.toNat = 0x202F
    || c.toNat = 0x205F || c.toNat = 0x3000

/-- Go `strings.TrimSpace`. -/
def TrimSpace (s : GoString) : GoString :=
  ((s.dropWhile IsSpace).reverse.dropWhile IsSpace).reverse

/-- Go `strings.TrimLeft` with a one-character cutset. -/
def TrimLeft (s : GoString) (c : Char) : GoString :=
  s.dropWhile (fun x => x = c)

/-- Go `strings.Cut` with a one-character separator: the text before and
after the first occurrence of `sep`, if there is one. -/
def Cut (sep : Char) : GoString → Option (GoString × GoString)
  | [] => none
  | c :: cs =>
    if c = sep then some ([], cs)
    else match Cut sep cs with
      | some (a, b) => some (c :: a, b)
      | none => none

/-- Go `strings.SplitN` with a one-character separator and `n ≥ 0`. -/
def SplitN (s : GoString) (sep : Char) : Nat → List GoString
  | 0 => []
  | 1 => [s]
  | n + 2 =>
    match Cut sep s with
    | some (a, b) => a :: SplitN b sep (n + 1)
    | none => [s]

/-- Go `strings.Split` with a one-character separator (no limit on the
number of pieces; a string of length `k` has at most `k + 1` pieces). -/
def Split (s : GoString) (sep : Char) : List GoString :=
  SplitN s sep (s.length + 1)

/-- Go `strings.Join` with a one-character separator. -/
def Join : List GoString → Char → GoString
  | [], _ => []
  | [a], _ => a
  | a :: b :: rest, sep => a ++ sep :: Join (b :: rest) sep

/-- Go `strings.ContainsAny`. -/
def ContainsAny (s chars : GoString) : Bool :=
  s.any (fun c => chars.contains c)

end strings

/-! ## Package `strconv` -/

namespace strconv

/-- The decimal digit character of a number below ten. -/
def digitChar (d : Nat) : Char :=
  match d with
  | 0 => '0' | 1 => '1' | 2 => '2' | 3 => '3' | 4 => '4'
  | 5 => '5' | 6 => '6' | 7 => '7' | 8 => '8' | _ => '9'

/-- The value of a decimal digit character. -/
def digitVal (c : Char) : Option Nat :=
  if c = '0' then some 0 else if c = '1' then some 1 else if c = '2' then some 2
  else if c = '3' then some 3 else if c = '4' then some 4 else if c = '5' then some 5
  else if c = '6' then some 6 else if c = '7' then some 7 else if c = '8' then some 8
  else if c = '9' then some 9 else none

/-- Digits of `n`, most significant first, pushed in front of `acc`. -/
def formatAux : Nat → Nat → GoString → GoString
  | 0, _, acc => acc
  | fuel + 1, n, acc =>
    if n / 10 = 0 then digitChar (n % 10) :: acc
    else formatAux fuel (n / 10) (digitChar (n % 10) :: acc)

/-- Go `strconv.FormatUint(n, 10)` (also `strconv.AppendUint`). -/
def FormatUint (n : Nat) : GoString := formatAux (n + 1) n []

/-- Left-to-right accumulation of a decimal numeral. -/
def parseAux : GoString → Nat → Option Nat
  | [], acc => some acc
  | c :: cs, acc =>
    match digitVal c with
    | some d => parseAux cs (10 * acc + d)
    | none => none

/-- Go `strconv.ParseUint(s, 10, 64)`: the value of a non-empty string of
decimal digits that fits 64 bits; a syntax or range error is `none`. -/
def ParseUint (s : GoString) : Option Nat :=
  if s = [] then none
  else match parseAux s 0 with
    | some n => if n < 2 ^ 64 then some n else none
    | none => none

end strconv

/-! ## Package `github.com/blang/semver`

The library is a dependency of the program. `Parse`, `ParseTolerant`,
`NewPRVersion` and `Version.String` are written after the library's source
in release 3.5.1, whose `ParseTolerant` leaves leading zeros to `Parse`; an
error result is `none`. `GetSortedMatchingTags` below takes the parser as an
argument, so that statements about the filter hold for any parser.
-/

namespace semver

/-- The library type `semver.PRVersion`. -/
structure PRVersion where
  VersionStr : GoString
  VersionNum : Nat
  IsNum : Bool
deriving DecidableEq

/-- The library type `semver.Version`. -/
structure Version where
  Major : Nat
  Minor : Nat
  Patch : Nat
  Pre : List PRVersion
  Build : List GoString
deriving DecidableEq

/-- The Go zero value of `semver.Version`, that is 0.0.0. -/
def Version.zero : Version := ⟨0, 0, 0, [], []⟩

/-- Library constant `numbers`. -/
def numbers : GoString := "0123456789".toList

/-- Library constant `alphas`. -/
def alphas : GoString := "abcdefghijklmnopqrstuvwxyzABCDEFGHIJKLMNOPQRSTUVWXYZ-".toList

/-- Library constant `alphanum`. -/
def alphanum : GoString := alphas ++ numbers

/-- Library helper `containsOnly`. -/
def containsOnly (s set : GoString) : Bool := s.all (fun c => set.contains c)

/-- Library helper `hasLeadingZeroes`. -/
def hasLeadingZeroes (s : GoString) : Bool :=
  match s with
  | c :: _ :: _ => c = '0'
  | _ => false

/-- Library method `PRVersion.String`. -/
def PRVersion.String (v : PRVersion) : GoString :=
  if v.IsNum then strconv.FormatUint v.VersionNum else v.VersionStr

/-- Library method `Version.String`: `major.minor.patch`, then `-` and the
dot-separated pre-release parts if any, then `+` and the dot-separated build
parts if any. -/
def Version.String (v : Version) : GoString :=
  let b := strconv.FormatUint v.Major ++ '.' :: strconv.FormatUint v.Minor
    ++ '.' :: strconv.FormatUint v.Patch
  let b := if v.Pre.length > 0 then
      b ++ '-' :: strings.Join (v.Pre.map PRVersion.String) '.' else b
  if v.Build.length > 0 then b ++ '+' :: strings.Join v.Build '.' else b

/-- Library function `NewPRVersion`. -/
def NewPRVersion (s : GoString) : Option PRVersion :=
  if s.length = 0 then none
  else if containsOnly s numbers then
    if hasLeadingZeroes s then none
    else match strconv.ParseUint s with
      | some num => some ⟨[], num, true⟩
      | none => none
  else if containsOnly s alphanum then some ⟨s, 0, false⟩
  else none

/-- The check of one build meta data part inside `Parse`. -/
def checkBuild (s : GoString) : Option GoString :=
  if s.length = 0 then none
  else if !containsOnly s alphanum then none
  else some s

/-- The check and conversion of a major, minor or patch number inside
`Parse`: digits only, no leading zero, then `strconv.ParseUint`. -/
def parseNumber (s : GoString) : Option Nat :=
  if !containsOnly s numbers then none
  else if hasLeadingZeroes s then none
  else strconv.ParseUint s

/-- Library function `Parse`; an error result is `none`. -/
def Parse (s : GoString) : Option Version :=
  if s.length = 0 then none
  else match strings.SplitN s '.' 3 with
    | [p0, p1, p2] =>
      match parseNumber p0 with
      | none => none
      | some major =>
      match parseNumber p1 with
      | none => none
      | some minor =>
        let (patchStr, build) :=
          match strings.Cut '+' p2 with
          | some (a, b) => (a, strings.Split b '.')
          | none => (p2, [])
        let (patchStr, prerelease) :=
          match strings.Cut '-' patchStr with
          | some (a, b) => (a, strings.Split b '.')
          | none => (patchStr, [])
        match parseNumber patchStr with
        | none => none
        | some patch =>
        match prerelease.mapM NewPRVersion with
        | none => none
        | some pre =>
        match build.mapM checkBuild with
        | none => none
        | some bld => some ⟨major, minor, patch, pre, bld⟩
    | _ => none

/-- Library function `ParseTolerant`: trims spaces, removes a leading `v`,
fills a missing minor or patch number with `0` and hands the result to
`Parse`. -/
def ParseTolerant (s : GoString) : Option Version :=
  let s := strings.TrimSpace s
  let s := strings.TrimPrefix s ['v']
  let parts := strings.SplitN s '.' 3
  if parts.length < 3 then
    if strings.ContainsAny (parts.getLastD []) ['+', '-'] then none
    else Parse (strings.Join (parts ++ List.replicate (3 - parts.length) ['0']) '.')
  else Parse s

end semver

/-! ## Packages `plumbing` and `object` of go-git -/

namespace plumbing

/-- The library type `plumbing.Hash`, an object identifier. -/
abbrev Hash := Nat

/-- Library constant `plumbing.ZeroHash`. -/
def ZeroHash : Hash := 0

/-- The library type `plumbing.ObjectType`. -/
inductive ObjectType
  | InvalidObject | CommitObject | TreeObject | BlobObject | TagObject
  | OFSDeltaObject | REFDeltaObject | AnyObject
deriving DecidableEq

/-- Library method `ObjectType.String`. -/
def ObjectType.String : ObjectType → GoString
  | .CommitObject => "commit".toList
  | .TreeObject => "tree".toList
  | .BlobObject => "blob".toList
  | .TagObject => "tag".toList
  | .OFSDeltaObject => "ofs-delta".toList
  | .REFDeltaObject => "ref-delta".toList
  | .AnyObject => "any".toList
  | .InvalidObject => "unknown".toList

/-- The library type `plumbing.Reference`: a reference name and the hash it
points to. -/
structure Reference where
  Name : GoString
  Hash : Hash
deriving DecidableEq

/-- Library method `ReferenceName.IsTag`. -/
def IsTag (name : GoString) : Bool := strings.HasPrefix name "refs/tags/".toList

end plumbing

namespace object

/-- The library type `object.Signature`. -/
structure Signature where
  Name : GoString
  Email : GoString
  When : Int
deriving DecidableEq

/-- The library type `object.Tag`, an annotated tag. -/
structure Tag where
  Hash : plumbing.Hash
  Name : GoString
  Tagger : Signature
  Message : GoString
  TargetType : plumbing.ObjectType
  Target : plumbing.Hash
deriving DecidableEq

/-- The values of the library interface `object.Object`. -/
inductive Object
  | Commit (hash : plumbing.Hash)
  | Tree (hash : plumbing.Hash)
  | Blob (hash : plumbing.Hash)
  | Tag (tag : object.Tag)
deriving DecidableEq

/-- Library method `Object.Type`. -/
def Object.Type : Object → plumbing.ObjectType
  | .Commit _ => .CommitObject
  | .Tree _ => .TreeObject
  | .Blob _ => .BlobObject
  | .Tag _ => .TagObject

end object

/-- What the iterator returned by `Repository.Tags` yields: the references,
then either `io.EOF` (`err = none`) or another error. -/
structure ReferenceIter where
  refs : List plumbing.Reference
  err : Option GoString

/-- The part of a `git.Repository` the program reads: one field per library
method called, holding that call's result. -/
structure Repository where
  Tags : Except GoString ReferenceIter
  TagObject : plumbing.Hash → Except GoString object.Tag
  Object : plumbing.Hash → Except GoString object.Object
  Head : Except GoString plumbing.Reference

/-! ## Package `fmt` -/

/-- The verb `%q` on a string without characters that need escaping. -/
def quote (s : GoString) : GoString := '"' :: s ++ ['"']

/-! ## `semvertag.go` -/

/-- Source function `GetLastCommitForBranch`: the returned hash and error. -/
def GetLastCommitForBranch (r : Repository) (branchRef : plumbing.Reference) :
    plumbing.Hash × Option GoString :=
  if !plumbing.IsTag branchRef.Name then (branchRef.Hash, none)
  else match r.Object branchRef.Hash with
    | .error err => (plumbing.ZeroHash, some err)
    | .ok (.Tag o) =>
      if o.TargetType ≠ .CommitObject then
        (plumbing.ZeroHash,
          some ("unsupported tag object target ".toList ++ quote o.TargetType.String))
      else (o.Target, none)
    | .ok (.Commit hash) => (hash, none)
    | .ok o => (plumbing.ZeroHash,
        some ("unsupported tag target ".toList ++ quote o.Type.String))

/-- Source type `VersionTag`. -/
structure VersionTag where
  Tag : object.Tag
  Version : semver.Version
deriving DecidableEq

/-- The body of the loop of `GetSortedMatchingTags`, run over the references
the iterator yields; `matchingTags` is the slice built so far. -/
def collectTags (parseTolerant : GoString → Option semver.Version) (r : Repository)
    (pfx : GoString) : List plumbing.Reference → List VersionTag → List VersionTag
  | [], matchingTags => matchingTags
  | ref :: rest, matchingTags =>
    match r.TagObject ref.Hash with
    | .error _ => collectTags parseTolerant r pfx rest matchingTags
    | .ok tag =>
      if !strings.HasPrefix tag.Name pfx then
        collectTags parseTolerant r pfx rest matchingTags
      else
        let versionName := tag.Name.drop pfx.length
        let versionName := strings.TrimPrefix versionName ['-']
        match parseTolerant versionName with
        | none => collectTags parseTolerant r pfx rest matchingTags
        | some version =>
          collectTags parseTolerant r pfx rest (matchingTags ++ [⟨tag, version⟩])

/-- One pass of the inner loop of the insertion sort of Go package `sort`:
`x` is put behind the elements sorted so far and swapped towards the front
while `less x y` holds for its left neighbour `y`. The elements sorted so far
are given, and returned, last element first. -/
def sortInsert {α : Type} (less : α → α → Bool) (x : α) : List α → List α
  | [] => [x]
  | y :: rest => if less x y then y :: sortInsert less x rest else x :: y :: rest

/-- Go `sort.Slice`, by the insertion sort of package `sort`. The package
runs this routine on short slices and another, unstable one on slices of more
than twelve elements, so the order this definition gives to elements that
compare equal is one of the orders `sort.Slice` may produce, not the only
one. -/
def sortSlice {α : Type} (less : α → α → Bool) (data : List α) : List α :=
  (data.foldl (fun done x => sortInsert less x done) []).reverse

/-- The comparison passed to `sort.Slice` in `GetSortedMatchingTags`:
the tag of `y` was made before the tag of `x`. -/
def tagLess (x y : VersionTag) : Bool := decide (y.Tag.Tagger.When < x.Tag.Tagger.When)

/-- Source function `GetSortedMatchingTags`. The parser of the semver library
is the parameter `parseTolerant`; a `log.Fatalf` is an `Except.error` with the
message. -/
def GetSortedMatchingTags (parseTolerant : GoString → Option semver.Version)
    (r : Repository) (pfx : GoString) : Except GoString (List VersionTag) :=
  match r.Tags with
  | .error err => .error ("Error iterating tags: ".toList ++ err)
  | .ok tagIter =>
    let matchingTags := collectTags parseTolerant r pfx tagIter.refs []
    match tagIter.err with
    | some err => .error ("Error reading tags: ".toList ++ err)
    | none => .ok (sortSlice tagLess matchingTags)

/-! ## `cmd/semvertag/main.go` -/

/-- The command line flags of `main.go` after `pflag.Parse`. -/
structure Flags where
  repo : GoString
  pfx : GoString
  patch : Bool
  minor : Bool
  major : Bool
  noFetch : Bool
  noPush : Bool
  quiet : Bool
  noSelectBranch : Bool
  alwaysSelectBranch : Bool
  username : GoString
  email : GoString
  tagMessage : GoString
  printLast : Int

/-- Source function `checkArgs`: the message of the first `log.Fatalf`
reached, `none` when the function returns. -/
def checkArgs (f : Flags) : Option GoString :=
  let argsSet : Nat := 0
  let argsSet := if f.patch then argsSet + 1 else argsSet
  let argsSet := if f.minor then argsSet + 1 else argsSet
  let argsSet := if f.major then argsSet + 1 else argsSet
  if argsSet ≠ 1 then
    some "Set exactly one of major, minor, or patch to increment".toList
  else if f.noSelectBranch && f.alwaysSelectBranch then
    some "Can set at most one of --no-branch-select and --always-select-branch".toList
  else if f.alwaysSelectBranch && f.quiet then
    some "Cannot do --quiet and --always-select-branch at the same time".toList
  else none

/-- Lines 107-110 of `main`: the version of the first sorted tag, the zero
value when there is none. -/
def lastVersion (tags : List VersionTag) : semver.Version :=
  match tags with
  | [] => semver.Version.zero
  | t :: _ => t.Version

/-- The increment `++` of a `uint64`. -/
def incr (n : Nat) : Nat := (n + 1) % 2 ^ 64

/-- Lines 112-120 of `main`: the three increments, each under its flag. -/
def bump (patch minor major : Bool) (v : semver.Version) : semver.Version :=
  let v := if patch then { v with Patch := incr v.Patch } else v
  let v := if minor then { v with Minor := incr v.Minor } else v
  if major then { v with Major := incr v.Major } else v

/-- Lines 147-156 of `main`: the name of the new tag. -/
def newTagName (pfx branchName : GoString) (v : semver.Version) : GoString :=
  let tagPrefix : GoString := []
  let tagPrefix := if pfx ≠ [] then pfx ++ ['-'] else tagPrefix
  let tagPrefix := if branchName ≠ "master".toList then tagPrefix ++ branchName else tagPrefix
  tagPrefix ++ 'v' :: v.String

/-- What `main` reads from outside the process and from library code that is
not part of the program: one field per call. -/
structure World where
  Getwd : Except GoString GoString
  PlainOpen : GoString → Except GoString Repository
  Execute : GoString → List GoString → Option GoString
  PromptForBranch : Repository → Except GoString plumbing.Reference
  Short : GoString → GoString
  ParseTolerant : GoString → Option semver.Version

/-- What `main` has computed when it reaches line 156. -/
structure Plan where
  newTagName : GoString
  commitToTag : plumbing.Hash
  branchName : GoString
  version : semver.Version
deriving DecidableEq

/-- Source function `main`, lines 68-156: from the flags to the name and the
commit of the tag to create. A `log.Fatalf` is an `Except.error` with the
message; log output is left out. -/
def main (w : World) (f : Flags) : Except GoString Plan :=
  match checkArgs f with
  | some msg => .error msg
  | none =>
  match (if f.repo ≠ [] then .ok f.repo else w.Getwd) with
  | .error err => .error ("Error getting working directory: ".toList ++ err)
  | .ok dir =>
  match w.PlainOpen dir with
  | .error err => .error ("Error opening directory ".toList ++ dir
      ++ " as repository: ".toList ++ err)
  | .ok r =>
  if !f.noFetch
      && (w.Execute dir ["git".toList, "fetch".toList, "--tags".toList]).isSome then
    .error "Error fetching new version of repo".toList
  else
  match GetSortedMatchingTags w.ParseTolerant r f.pfx with
  | .error msg => .error msg
  | .ok tags =>
  let version := bump f.patch f.minor f.major (lastVersion tags)
  match r.Head with
  | .error err => .error ("error getting head tag. ".toList ++ err)
  | .ok currentBranch =>
  let branchName := w.Short currentBranch.Name
  if (w.Short currentBranch.Name ≠ "master".toList && !f.noSelectBranch && !f.quiet)
      || f.alwaysSelectBranch then
    match w.PromptForBranch r with
    | .error err => .error ("Error selecting branch: ".toList ++ err)
    | .ok branch =>
      match GetLastCommitForBranch r branch with
      | (_, some err) => .error ("Cannot get last commit to current branch: ".toList ++ err)
      | (commitToTag, none) =>
        let branchName := w.Short branch.Name
        .ok ⟨newTagName f.pfx branchName version, commitToTag, branchName, version⟩
  else
    match GetLastCommitForBranch r currentBranch with
    | (_, some err) => .error ("Cannot get last commit to current branch: ".toList ++ err)
    | (commitToTag, none) =>
      .ok ⟨newTagName f.pfx branchName version, commitToTag, branchName, version⟩

/-! ## Specification-side definitions -/

/-- The number of bump flags set among major, minor and patch. -/
def bumpCount (f : Flags) : Nat := [f.major, f.minor, f.patch].count true

/-- The text `major.minor.patch` of a version. -/
def dotted (v : semver.Version) : GoString :=
  strconv.FormatUint v.Major ++ ['.'] ++ strconv.FormatUint v.Minor ++ ['.']
    ++ strconv.FormatUint v.Patch

/-- Lexicographic order on `(major, minor, patch)`. -/
def versionLt (a b : semver.Version) : Prop :=
  a.Major < b.Major ∨ (a.Major = b.Major ∧
    (a.Minor < b.Minor ∨ (a.Minor = b.Minor ∧ a.Patch < b.Patch)))

instance (a b : semver.Version) : Decidable (versionLt a b) := by
  unfold versionLt
  infer_instance

/-- The condition of line 131 of `main` under which the user is asked to
select the branch to tag. -/
def selectsBranch (w : World) (f : Flags) (currentBranch : plumbing.Reference) : Bool :=
  (decide (w.Short currentBranch.Name ≠ "master".toList) && !f.noSelectBranch && !f.quiet)
    || f.alwaysSelectBranch

/-- The name without its first character when that is `-`, unchanged
otherwise: at most one separator is removed. -/
def dropSeparator : GoString → GoString
  | '-' :: rest => rest
  | s => s

/-- The remainder of a tag name for the prefix `pfx`: the name with `pfx` and
then at most one following `-` removed. -/
def remainder (pfx name : GoString) : GoString := dropSeparator (name.drop pfx.length)

/-- The record the filter keeps for an annotated tag, as the specification
words it: the tag's name starts with `pfx` and the parser accepts the
remainder, whose parse is the record's version. -/
def keptRecord (parseTolerant : GoString → Option semver.Version) (pfx : GoString)
    (tag : object.Tag) : Option VersionTag :=
  if pfx <+: tag.Name then
    (parseTolerant (remainder pfx tag.Name)).map fun version => ⟨tag, version⟩
  else none

/-- The annotated tags of a repository among the given references, in
iteration order: those for which `TagObject` succeeds. -/
def annotatedTags (r : Repository) (refs : List plumbing.Reference) : List object.Tag :=
  refs.filterMap fun ref => (r.TagObject ref.Hash).toOption

/-- The tagger time of a matching tag. -/
def VersionTag.When (t : VersionTag) : Int := t.Tag.Tagger.When

/-- A canonical decimal numeral: digits only, not empty, and no leading zero
unless it is "0". -/
def IsNumeral (s : GoString) : Prop :=
  (∀ c ∈ s, c ∈ semver.numbers) ∧ (s = ['0'] ∨ ∃ c rest, s = c :: rest ∧ c ≠ '0')

/-! ## Sample repositories, worlds and flags -/

/-- A repository with the annotated tags `tags`, one reference per tag, the
tag with index `i` stored under hash `i`. -/
def repoOfTags (tags : List object.Tag) : Repository where
  Tags := .ok ⟨(List.range tags.length).map fun i => ⟨[], i⟩, none⟩
  TagObject := fun h =>
    match tags.get? h with
    | some tag => .ok tag
    | none => .error "tag not found".toList
  Object := fun _ => .error "object not found".toList
  Head := .ok ⟨"refs/heads/master".toList, 7⟩

/-- An annotated tag of commit 9 with the given name and tagger time. -/
def tagAt (name : String) (time : Int) : object.Tag :=
  ⟨0, name.toList, ⟨"dev".toList, "dev@example.org".toList, time⟩, [], .CommitObject, 9⟩

/-- A repository without tags whose head is the branch master at commit 7. -/
def emptyRepo : Repository where
  Tags := .ok ⟨[], none⟩
  TagObject := fun _ => .error "tag not found".toList
  Object := fun _ => .error "object not found".toList
  Head := .ok ⟨"refs/heads/master".toList, 7⟩

/-- A world in which every call succeeds, every directory holds
`emptyRepo`, and references are shortened by removing `refs/heads/`. -/
def quietWorld : World where
  Getwd := .ok "/work".toList
  PlainOpen := fun _ => .ok emptyRepo
  Execute := fun _ _ => none
  PromptForBranch := fun r => r.Head
  Short := fun name => strings.TrimPrefix name "refs/heads/".toList
  ParseTolerant := semver.ParseTolerant

/-- A world in which every call succeeds and every directory holds the
repository `r`; references are shortened by removing `refs/heads/`. -/
def worldOf (r : Repository) : World where
  Getwd := .ok "/work".toList
  PlainOpen := fun _ => .ok r
  Execute := fun _ _ => none
  PromptForBranch := fun r => r.Head
  Short := fun name => strings.TrimPrefix name "refs/heads/".toList
  ParseTolerant := semver.ParseTolerant

/-- Flags as `pflag` leaves them when the command line sets none. -/
def defaultFlags : Flags where
  repo := []
  pfx := []
  patch := false
  minor := false
  major := false
  noFetch := false
  noPush := false
  quiet := false
  noSelectBranch := false
  alwaysSelectBranch := false
  username := []
  email := []
  tagMessage := []
  printLast := 5

/-- A repository in which hash 1 is an annotated tag of commit 9 and hash 2 an
annotated tag of a tree. -/
def resolveRepo : Repository where
  Tags := .ok ⟨[], none⟩
  TagObject := fun _ => .error "tag not found".toList
  Object := fun h =>
    if h = 1 then .ok (.Tag ⟨1, "v1.0.0".toList, ⟨[], [], 0⟩, [], .CommitObject, 9⟩)
    else if h = 2 then .ok (.Tag ⟨2, "docs".toList, ⟨[], [], 0⟩, [], .TreeObject, 5⟩)
    else .error "object not found".toList
  Head := .ok ⟨"refs/heads/master".toList, 7⟩

/-! ## Next-version computation -/

/-- C3, counterexample: from 1.2.3 a major bump gives 2.2.3, not 2.0.0, and a
minor bump gives 1.3.3, not 1.3.0. -/
theorem bump_major_keeps_lower_fields :
    bump false false true ⟨1, 2, 3, [], []⟩ = ⟨2, 2, 3, [], []⟩
    ∧ bump false false true ⟨1, 2, 3, [], []⟩ ≠ ⟨2, 0, 0, [], []⟩
    ∧ bump false true false ⟨1, 2, 3, [], []⟩ = ⟨1, 3, 3, [], []⟩
    ∧ bump false true false ⟨1, 2, 3, [], []⟩ ≠ ⟨1, 3, 0, [], []⟩ := by
  decide

/-- C3, as amended: a major bump yields (major+1, minor, patch), a minor bump
(major, minor+1, patch) and a patch bump (major, minor, patch+1), the
increment being that of a 64-bit unsigned number; no lower field is reset. -/
theorem bump_without_reset (major minor patch : Nat) (pre : List semver.PRVersion)
    (build : List GoString) :
    bump false false true ⟨major, minor, patch, pre, build⟩
      = ⟨(major + 1) % 2 ^ 64, minor, patch, pre, build⟩
    ∧ bump false true false ⟨major, minor, patch, pre, build⟩
      = ⟨major, (minor + 1) % 2 ^ 64, patch, pre, build⟩
    ∧ bump true false false ⟨major, minor, patch, pre, build⟩
      = ⟨major, minor, (patch + 1) % 2 ^ 64, pre, build⟩ := by
  simp [bump, incr]

/-- C4, counterexample: the major number 2^64 - 1, which the tolerant parser
accepts, is bumped to 0 and not to 2^64. -/
theorem bump_wraps_at_max :
    semver.ParseTolerant "v18446744073709551615.0.0".toList
      = some ⟨2 ^ 64 - 1, 0, 0, [], []⟩
    ∧ (bump false false true ⟨2 ^ 64 - 1, 0, 0, [], []⟩).Major = 0
    ∧ (bump false false true ⟨2 ^ 64 - 1, 0, 0, [], []⟩).Major ≠ (2 ^ 64 - 1) + 1 := by
  decide

/-- C4, as amended: with exactly one bump flag set, the selected field of a
version whose numbers are 64-bit grows by exactly 1 when it is below
2^64 - 1 and becomes 0 when it is 2^64 - 1; the other two numbers, the
pre-release and the build meta data are unchanged. -/
theorem bump_selected_field (v : semver.Version)
    (hM : v.Major < 2 ^ 64) (hm : v.Minor < 2 ^ 64) (hp : v.Patch < 2 ^ 64) :
    (bump false false true v
        = { v with Major := if v.Major = 2 ^ 64 - 1 then 0 else v.Major + 1 })
    ∧ (bump false true false v
        = { v with Minor := if v.Minor = 2 ^ 64 - 1 then 0 else v.Minor + 1 })
    ∧ (bump true false false v
        = { v with Patch := if v.Patch = 2 ^ 64 - 1 then 0 else v.Patch + 1 }) := by
  have key : ∀ n : Nat, n < 18446744073709551616 →
      (n + 1) % 18446744073709551616
        = if n = 18446744073709551615 then 0 else n + 1 := by
    intro n hn
    split <;> omega
  norm_num at hM hm hp
  simp [bump, incr, key _ hM, key _ hm, key _ hp]

/-- C4, witness: the three bumps of 1.2.3. -/
theorem bump_selected_field_witness :
    bump false false true ⟨1, 2, 3, [], []⟩ = ⟨2, 2, 3, [], []⟩
    ∧ bump false true false ⟨1, 2, 3, [], []⟩ = ⟨1, 3, 3, [], []⟩
    ∧ bump true false false ⟨1, 2, 3, [], []⟩ = ⟨1, 2, 4, [], []⟩ := by
  have h := bump_selected_field ⟨1, 2, 3, [], []⟩ (by decide) (by decide) (by decide)
  simpa using h

/-! ## Argument check -/

/-- C6: `checkArgs` ends the program with a usage error exactly when the
number of bump flags set is not 1, or no-select-branch and
always-select-branch are both set, or always-select-branch and quiet are both
set; zero, two or three bump flags are always rejected; and when `checkArgs`
rejects, `main` ends with that message whatever the working directory, the
repository and every other outside call would have returned. -/
theorem checkArgs_rejects_iff (f : Flags) :
    ((checkArgs f).isSome ↔
      (bumpCount f ≠ 1 ∨ (f.noSelectBranch = true ∧ f.alwaysSelectBranch = true)
        ∨ (f.alwaysSelectBranch = true ∧ f.quiet = true)))
    ∧ (bumpCount f = 0 ∨ bumpCount f = 2 ∨ bumpCount f = 3 → (checkArgs f).isSome)
    ∧ (∀ (w : World) (msg : GoString), checkArgs f = some msg → main w f = .error msg) := by
  refine ⟨?_, ?_, ?_⟩
  · obtain ⟨_, _, patch, minor, major, _, _, quiet, noSel, always, _, _, _, _⟩ := f
    cases patch <;> cases minor <;> cases major <;> cases quiet <;> cases noSel <;>
      cases always <;> simp [checkArgs, bumpCount]
  · obtain ⟨_, _, patch, minor, major, _, _, quiet, noSel, always, _, _, _, _⟩ := f
    cases patch <;> cases minor <;> cases major <;> simp [checkArgs, bumpCount]
  · intro w msg h
    simp only [main, h]

/-- C6, witness: without a bump flag the program stops with the usage
message, here in a world where every later step would have succeeded. -/
theorem checkArgs_rejects_iff_witness :
    (checkArgs defaultFlags).isSome
    ∧ main quietWorld defaultFlags
      = .error "Set exactly one of major, minor, or patch to increment".toList :=
  ⟨(checkArgs_rejects_iff defaultFlags).2.1 (Or.inl (by decide)),
   (checkArgs_rejects_iff defaultFlags).2.2 quietWorld _ (by decide)⟩

/-! ## Commit resolution -/

/-- C8: for a reference that is not a tag, `GetLastCommitForBranch` returns
the reference's hash and no error; for a tag reference that resolves to an
annotated tag object it returns the tag's target and no error when the target
type is commit, and otherwise the zero hash with an error whose text starts
with "unsupported" and ends with the quoted name of the target's kind; so the
call is free of error exactly when the target type is commit. -/
theorem GetLastCommitForBranch_spec (r : Repository) (ref : plumbing.Reference) :
    (plumbing.IsTag ref.Name = false →
      GetLastCommitForBranch r ref = (ref.Hash, none))
    ∧ (∀ o : object.Tag, plumbing.IsTag ref.Name = true →
        r.Object ref.Hash = .ok (.Tag o) →
        (o.TargetType = .CommitObject →
          GetLastCommitForBranch r ref = (o.Target, none))
        ∧ (o.TargetType ≠ .CommitObject →
          GetLastCommitForBranch r ref = (plumbing.ZeroHash,
            some ("unsupported tag object target ".toList ++ quote o.TargetType.String))
          ∧ ∃ msg, (GetLastCommitForBranch r ref).2 = some msg
            ∧ "unsupported".toList <+: msg
            ∧ quote o.TargetType.String <:+ msg)
        ∧ ((GetLastCommitForBranch r ref).2 = none ↔ o.TargetType = .CommitObject)) := by
  refine ⟨?_, ?_⟩
  · intro h
    simp [GetLastCommitForBranch, h]
  · intro o hTag hObj
    refine ⟨?_, ?_, ?_⟩
    · intro hc
      simp [GetLastCommitForBranch, hTag, hObj, hc]
    · intro hc
      have hres : GetLastCommitForBranch r ref = (plumbing.ZeroHash,
          some ("unsupported tag object target ".toList ++ quote o.TargetType.String)) := by
        simp [GetLastCommitForBranch, hTag, hObj, hc]
      refine ⟨hres, _, by rw [hres], ?_, ?_⟩
      · exact ⟨" tag object target ".toList ++ quote o.TargetType.String, by
          simp [List.append_assoc]⟩
      · exact ⟨"unsupported tag object target ".toList, rfl⟩
    · by_cases hc : o.TargetType = .CommitObject
      · simp [GetLastCommitForBranch, hTag, hObj, hc]
      · simp [GetLastCommitForBranch, hTag, hObj, hc]

/-- C8, witness: a branch gives its own hash, a tag of a commit gives the
commit, a tag of a tree gives the zero hash and the error naming "tree". -/
theorem GetLastCommitForBranch_spec_witness :
    GetLastCommitForBranch resolveRepo ⟨"refs/heads/master".toList, 7⟩ = (7, none)
    ∧ GetLastCommitForBranch resolveRepo ⟨"refs/tags/v1.0.0".toList, 1⟩ = (9, none)
    ∧ GetLastCommitForBranch resolveRepo ⟨"refs/tags/docs".toList, 2⟩
      = (0, some "unsupported tag object target \"tree\"".toList) :=
  ⟨(GetLastCommitForBranch_spec resolveRepo ⟨"refs/heads/master".toList, 7⟩).1 (by decide),
   ((GetLastCommitForBranch_spec resolveRepo ⟨"refs/tags/v1.0.0".toList, 1⟩).2
      ⟨1, "v1.0.0".toList, ⟨[], [], 0⟩, [], .CommitObject, 9⟩ (by decide) rfl).1 rfl,
   (((GetLastCommitForBranch_spec resolveRepo ⟨"refs/tags/docs".toList, 2⟩).2
      ⟨2, "docs".toList, ⟨[], [], 0⟩, [], .TreeObject, 5⟩ (by decide) rfl).2.1
      (by decide)).1⟩

/-! ## Tag naming -/

/-- C7, counterexample: with prefix "rel" on the branch "feature" the name of
version 2.0.0 is "rel-featurev2.0.0", without a separator after the branch
name; and version 1.2.4 with the pre-release part "rc1" is named
"v1.2.4-rc1", more than major.minor.patch after the "v". -/
theorem newTagName_branch_without_separator :
    newTagName "rel".toList "feature".toList ⟨2, 0, 0, [], []⟩ = "rel-featurev2.0.0".toList
    ∧ newTagName "rel".toList "feature".toList ⟨2, 0, 0, [], []⟩
      ≠ "rel-feature-v2.0.0".toList
    ∧ newTagName [] "master".toList ⟨1, 2, 4, [⟨"rc1".toList, 0, false⟩], []⟩
      = "v1.2.4-rc1".toList
    ∧ newTagName [] "master".toList ⟨1, 2, 4, [⟨"rc1".toList, 0, false⟩], []⟩
      ≠ "v1.2.4".toList := by
  decide

/-- C7, as amended: the new tag's name is the prefix followed by "-" (only if
the prefix is non-empty), then the branch name with nothing after it (only if
the branch is not "master"), then "v" and the text of the new version, which
is exactly major.minor.patch when the version has no pre-release and no build
meta data; prefix "rel" on master with version 2.0.0 gives "rel-v2.0.0". -/
theorem newTagName_format (pfx branchName : GoString) (v : semver.Version) :
    newTagName pfx branchName v
      = (if pfx = [] then [] else pfx ++ "-".toList)
        ++ (if branchName = "master".toList then [] else branchName)
        ++ "v".toList ++ v.String
    ∧ (v.Pre = [] → v.Build = [] → v.String = dotted v)
    ∧ (v.Pre = [] → v.Build = [] →
        newTagName [] "master".toList v = "v".toList ++ dotted v
        ∧ (pfx ≠ [] → newTagName pfx "master".toList v
            = pfx ++ "-".toList ++ "v".toList ++ dotted v)
        ∧ (branchName ≠ "master".toList → newTagName [] branchName v
            = branchName ++ "v".toList ++ dotted v)
        ∧ (pfx ≠ [] → branchName ≠ "master".toList → newTagName pfx branchName v
            = pfx ++ "-".toList ++ branchName ++ "v".toList ++ dotted v)) := by
  have hs : v.Pre = [] → v.Build = [] → v.String = dotted v := by
    intro h1 h2
    simp [semver.Version.String, dotted, h1, h2]
  have hm : "master".toList = ['m', 'a', 's', 't', 'e', 'r'] := rfl
  refine ⟨?_, hs, ?_⟩
  · rw [hm]
    by_cases h1 : pfx = [] <;> by_cases h2 : branchName = ['m', 'a', 's', 't', 'e', 'r'] <;>
      simp [newTagName, h1, h2]
  · intro h1 h2
    rw [← hs h1 h2, hm]
    refine ⟨?_, ?_, ?_, ?_⟩
    · simp [newTagName]
    · intro hp
      simp [newTagName, hp]
    · intro hb
      simp [newTagName, hb]
    · intro hp hb
      simp [newTagName, hp, hb]

/-- C7, witness: prefix "rel" on master with version 2.0.0 gives "rel-v2.0.0",
on the branch "feature" it gives "rel-featurev2.0.0". -/
theorem newTagName_format_witness :
    newTagName "rel".toList "master".toList ⟨2, 0, 0, [], []⟩ = "rel-v2.0.0".toList
    ∧ newTagName "rel".toList "feature".toList ⟨2, 0, 0, [], []⟩
      = "rel-featurev2.0.0".toList :=
  ⟨((newTagName_format "rel".toList "master".toList ⟨2, 0, 0, [], []⟩).2.2 rfl rfl).2.1
      (by decide),
   ((newTagName_format "rel".toList "feature".toList ⟨2, 0, 0, [], []⟩).2.2 rfl rfl).2.2.2
      (by decide) (by decide)⟩

/-! ## Sorting by tagger time -/

theorem sortInsert_perm {α : Type} (less : α → α → Bool) (x : α) (l : List α) :
    (sortInsert less x l).Perm (x :: l) := by
  induction l with
  | nil => simp [sortInsert]
  | cons y rest ih =>
    simp only [sortInsert]
    split
    · exact (List.Perm.cons y ih).trans (List.Perm.swap x y rest)
    · exact List.Perm.refl _

theorem sortInsert_ascending (x : VersionTag) (l : List VersionTag)
    (h : l.Pairwise (fun a b => a.When ≤ b.When)) :
    (sortInsert tagLess x l).Pairwise (fun a b => a.When ≤ b.When) := by
  induction l with
  | nil => simp [sortInsert]
  | cons y rest ih =>
    have hy := List.pairwise_cons.mp h
    simp only [sortInsert]
    split
    · next hlt =>
      have hlt' : y.When < x.When := by simpa [tagLess, VersionTag.When] using hlt
      refine List.pairwise_cons.mpr ⟨?_, ih hy.2⟩
      intro z hz
      rcases (List.mem_cons.mp ((sortInsert_perm tagLess x rest).mem_iff.mp hz)) with hzx | hzr
      · subst hzx; exact le_of_lt hlt'
      · exact hy.1 z hzr
    · next hge =>
      have hge' : x.When ≤ y.When := by
        have : ¬ y.When < x.When := by simpa [tagLess, VersionTag.When] using hge
        exact not_lt.mp this
      refine List.pairwise_cons.mpr ⟨?_, h⟩
      intro z hz
      rcases List.mem_cons.mp hz with hzy | hzr
      · subst hzy; exact hge'
      · exact le_trans hge' (hy.1 z hzr)

theorem sortFold_spec (data done : List VersionTag)
    (h : done.Pairwise (fun a b => a.When ≤ b.When)) :
    (data.foldl (fun done x => sortInsert tagLess x done) done).Perm (data.reverse ++ done)
    ∧ (data.foldl (fun done x => sortInsert tagLess x done) done).Pairwise
        (fun a b => a.When ≤ b.When) := by
  induction data generalizing done with
  | nil => exact ⟨by simp, h⟩
  | cons x rest ih =>
    have step := ih (sortInsert tagLess x done) (sortInsert_ascending x done h)
    refine ⟨?_, step.2⟩
    simp only [List.foldl_cons, List.reverse_cons, List.append_assoc, List.singleton_append]
    exact step.1.trans (List.Perm.append_left _ (sortInsert_perm tagLess x done))

theorem sortSlice_perm (data : List VersionTag) : (sortSlice tagLess data).Perm data := by
  have h := (sortFold_spec data [] List.Pairwise.nil).1
  simp only [List.append_nil] at h
  exact (List.reverse_perm _).trans (h.trans (List.reverse_perm _))

theorem sortSlice_descending (data : List VersionTag) :
    (sortSlice tagLess data).Pairwise (fun a b => b.When ≤ a.When) := by
  have h := (sortFold_spec data [] List.Pairwise.nil).2
  exact List.pairwise_reverse.mpr h

/-- On a repository whose tag iteration ends with `io.EOF` the function
returns the sorted slice of collected tags. -/
theorem GetSortedMatchingTags_ok (parseTolerant : GoString → Option semver.Version)
    (r : Repository) (pfx : GoString) (refs : List plumbing.Reference)
    (h : r.Tags = .ok ⟨refs, none⟩) :
    GetSortedMatchingTags parseTolerant r pfx
      = .ok (sortSlice tagLess (collectTags parseTolerant r pfx refs [])) := by
  simp [GetSortedMatchingTags, h]

/-- C2: when the tag iteration succeeds, `GetSortedMatchingTags` returns a
permutation of the filtered tags in which no element's tagger time is
strictly earlier than that of an element after it; the first element's time
is greater than or equal to the time of every other element. -/
theorem GetSortedMatchingTags_sorted (parseTolerant : GoString → Option semver.Version)
    (r : Repository) (pfx : GoString) (refs : List plumbing.Reference)
    (h : r.Tags = .ok ⟨refs, none⟩) :
    ∃ tags, GetSortedMatchingTags parseTolerant r pfx = .ok tags
      ∧ tags.Perm (collectTags parseTolerant r pfx refs [])
      ∧ tags.Pairwise (fun a b => ¬ a.When < b.When)
      ∧ ∀ first rest, tags = first :: rest → ∀ t ∈ rest, t.When ≤ first.When := by
  refine ⟨_, GetSortedMatchingTags_ok parseTolerant r pfx refs h, sortSlice_perm _, ?_, ?_⟩
  · exact (sortSlice_descending _).imp (fun hab => not_lt.mpr hab)
  · intro first rest heq t ht
    have hd := sortSlice_descending (collectTags parseTolerant r pfx refs [])
    rw [heq] at hd
    exact (List.pairwise_cons.mp hd).1 t ht

/-- C2, witness: three tags made at times 10, 30 and 20 come back in the
order 30, 20, 10. -/
theorem GetSortedMatchingTags_sorted_witness :
    ∃ tags, GetSortedMatchingTags semver.ParseTolerant
        (repoOfTags [tagAt "v1.0.0" 10, tagAt "v1.2.0" 30, tagAt "v1.1.0" 20]) [] = .ok tags
      ∧ tags.map VersionTag.When = [30, 20, 10] := by
  obtain ⟨tags, h1, _, _, _⟩ := GetSortedMatchingTags_sorted semver.ParseTolerant
    (repoOfTags [tagAt "v1.0.0" 10, tagAt "v1.2.0" 30, tagAt "v1.1.0" 20]) []
    ((List.range 3).map fun i => ⟨[], i⟩) rfl
  refine ⟨tags, h1, ?_⟩
  have h2 : GetSortedMatchingTags semver.ParseTolerant
      (repoOfTags [tagAt "v1.0.0" 10, tagAt "v1.2.0" 30, tagAt "v1.1.0" 20]) []
      = .ok [⟨tagAt "v1.2.0" 30, ⟨1, 2, 0, [], []⟩⟩, ⟨tagAt "v1.1.0" 20, ⟨1, 1, 0, [], []⟩⟩,
          ⟨tagAt "v1.0.0" 10, ⟨1, 0, 0, [], []⟩⟩] := by
    rfl
  rw [h2] at h1
  cases h1
  decide

/-! ## Tag filtering -/

theorem TrimPrefix_separator (s : GoString) :
    strings.TrimPrefix s ['-'] = dropSeparator s := by
  match s with
  | [] => rfl
  | c :: rest =>
    by_cases hc : c = '-'
    · subst hc
      simp [strings.TrimPrefix, strings.HasPrefix, dropSeparator]
    · have h1 : strings.TrimPrefix (c :: rest) ['-'] = c :: rest := by
        simp [strings.TrimPrefix, strings.HasPrefix, List.isPrefixOf, hc]
        intro h
        exact absurd h.symm hc
      rw [h1]
      unfold dropSeparator
      split
      · next heq => cases heq; exact absurd rfl hc
      · rfl

theorem HasPrefix_iff (s p : GoString) : strings.HasPrefix s p = true ↔ p <+: s := by
  simp [strings.HasPrefix]

theorem collectTags_eq (parseTolerant : GoString → Option semver.Version) (r : Repository)
    (pfx : GoString) (refs : List plumbing.Reference) (acc : List VersionTag) :
    collectTags parseTolerant r pfx refs acc
      = acc ++ (annotatedTags r refs).filterMap (keptRecord parseTolerant pfx) := by
  induction refs generalizing acc with
  | nil => simp [collectTags, annotatedTags]
  | cons ref rest ih =>
    unfold collectTags
    cases hobj : r.TagObject ref.Hash with
    | error e =>
      have hA : annotatedTags r (ref :: rest) = annotatedTags r rest := by
        simp [annotatedTags, hobj, Except.toOption]
      rw [hA]
      exact ih acc
    | ok tag =>
      have hA : annotatedTags r (ref :: rest) = tag :: annotatedTags r rest := by
        simp [annotatedTags, hobj, Except.toOption]
      rw [hA]
      by_cases hp : pfx <+: tag.Name
      · have hp' : strings.HasPrefix tag.Name pfx = true := (HasPrefix_iff _ _).mpr hp
        simp only [hp', Bool.not_true, Bool.false_eq_true, if_false, TrimPrefix_separator]
        cases hv : parseTolerant (dropSeparator (tag.Name.drop pfx.length)) with
        | none =>
          have hk : keptRecord parseTolerant pfx tag = none := by
            simp [keptRecord, hp, remainder, hv]
          rw [List.filterMap_cons, hk]
          exact ih acc
        | some version =>
          have hk : keptRecord parseTolerant pfx tag = some ⟨tag, version⟩ := by
            simp [keptRecord, hp, remainder, hv]
          rw [List.filterMap_cons, hk]
          simp only [ih, List.append_assoc, List.singleton_append]
      · have hp' : strings.HasPrefix tag.Name pfx = false := by
          cases hb : strings.HasPrefix tag.Name pfx with
          | false => rfl
          | true => exact absurd ((HasPrefix_iff _ _).mp hb) hp
        have hk : keptRecord parseTolerant pfx tag = none := by
          simp [keptRecord, hp]
        rw [List.filterMap_cons, hk]
        simp only [hp', Bool.not_false, if_true]
        exact ih acc

theorem mem_keptRecords (parseTolerant : GoString → Option semver.Version)
    (pfx : GoString) (tags : List object.Tag) (vt : VersionTag) :
    vt ∈ tags.filterMap (keptRecord parseTolerant pfx) ↔
      vt.Tag ∈ tags ∧ pfx <+: vt.Tag.Name
        ∧ parseTolerant (remainder pfx vt.Tag.Name) = some vt.Version := by
  simp only [List.mem_filterMap, keptRecord]
  constructor
  · rintro ⟨tag, hmem, hk⟩
    by_cases hp : pfx <+: tag.Name
    · simp only [hp, if_true, Option.map_eq_some'] at hk
      obtain ⟨version, hv, rfl⟩ := hk
      exact ⟨hmem, hp, hv⟩
    · simp [hp] at hk
  · rintro ⟨hmem, hp, hv⟩
    exact ⟨vt.Tag, hmem, by simp [hp, hv]⟩

/-- C1: when the tag iteration succeeds, `GetSortedMatchingTags` returns, up
to order, exactly one record for each annotated tag whose name starts with
the prefix and whose remainder (the name with the prefix and then at most one
following "-" removed) the tolerant parser accepts: a record is returned if
and only if its tag is such a tag and its version is the parse of the
remainder; a tag whose remainder the parser rejects has no record, and the
call still succeeds. -/
theorem GetSortedMatchingTags_filter (parseTolerant : GoString → Option semver.Version)
    (r : Repository) (pfx : GoString) (refs : List plumbing.Reference)
    (h : r.Tags = .ok ⟨refs, none⟩) :
    ∃ result, GetSortedMatchingTags parseTolerant r pfx = .ok result
      ∧ result.Perm ((annotatedTags r refs).filterMap (keptRecord parseTolerant pfx))
      ∧ (∀ vt, vt ∈ result ↔
          vt.Tag ∈ annotatedTags r refs ∧ pfx <+: vt.Tag.Name
            ∧ parseTolerant (remainder pfx vt.Tag.Name) = some vt.Version)
      ∧ (∀ tag, parseTolerant (remainder pfx tag.Name) = none →
          ∀ vt ∈ result, vt.Tag ≠ tag) := by
  have hperm : (sortSlice tagLess (collectTags parseTolerant r pfx refs [])).Perm
      ((annotatedTags r refs).filterMap (keptRecord parseTolerant pfx)) := by
    refine (sortSlice_perm (collectTags parseTolerant r pfx refs [])).trans ?_
    rw [collectTags_eq, List.nil_append]
  have hmem : ∀ vt, vt ∈ sortSlice tagLess (collectTags parseTolerant r pfx refs []) ↔
      vt.Tag ∈ annotatedTags r refs ∧ pfx <+: vt.Tag.Name
        ∧ parseTolerant (remainder pfx vt.Tag.Name) = some vt.Version := by
    intro vt
    rw [hperm.mem_iff]
    exact mem_keptRecords parseTolerant pfx _ vt
  refine ⟨_, GetSortedMatchingTags_ok parseTolerant r pfx refs h, hperm, hmem, ?_⟩
  intro tag hnone vt hvt heq
  have := ((hmem vt).mp hvt).2.2
  rw [heq, hnone] at this
  cases this

/-- C1, witness: with prefix "rel", of the tags "rel-v1.0.0", "rel-nightly",
"other-v2.0.0", "relv1.1.0" and "rel--v3.0.0" exactly the first and the fourth
are returned, with versions 1.0.0 and 1.1.0. -/
theorem GetSortedMatchingTags_filter_witness :
    ∃ result, GetSortedMatchingTags semver.ParseTolerant
        (repoOfTags [tagAt "rel-v1.0.0" 10, tagAt "rel-nightly" 20, tagAt "other-v2.0.0" 30,
          tagAt "relv1.1.0" 40, tagAt "rel--v3.0.0" 50]) "rel".toList = .ok result
      ∧ result = [⟨tagAt "relv1.1.0" 40, ⟨1, 1, 0, [], []⟩⟩,
          ⟨tagAt "rel-v1.0.0" 10, ⟨1, 0, 0, [], []⟩⟩] := by
  obtain ⟨result, h1, _, _, _⟩ := GetSortedMatchingTags_filter semver.ParseTolerant
    (repoOfTags [tagAt "rel-v1.0.0" 10, tagAt "rel-nightly" 20, tagAt "other-v2.0.0" 30,
      tagAt "relv1.1.0" 40, tagAt "rel--v3.0.0" 50]) "rel".toList
    ((List.range 5).map fun i => ⟨[], i⟩) rfl
  refine ⟨result, h1, ?_⟩
  have h2 : GetSortedMatchingTags semver.ParseTolerant
      (repoOfTags [tagAt "rel-v1.0.0" 10, tagAt "rel-nightly" 20, tagAt "other-v2.0.0" 30,
        tagAt "relv1.1.0" 40, tagAt "rel--v3.0.0" 50]) "rel".toList
      = .ok [⟨tagAt "relv1.1.0" 40, ⟨1, 1, 0, [], []⟩⟩,
          ⟨tagAt "rel-v1.0.0" 10, ⟨1, 0, 0, [], []⟩⟩] := by
    rfl
  rw [h2] at h1
  cases h1
  rfl

/-! ## Decimal numerals -/

theorem digitChar_mem (d : Nat) : strconv.digitChar d ∈ semver.numbers := by
  unfold strconv.digitChar
  split <;> decide

theorem digitVal_digitChar (d : Nat) (h : d < 10) :
    strconv.digitVal (strconv.digitChar d) = some d := by
  interval_cases d <;> rfl

theorem digitChar_ne_zero (d : Nat) (h : d ≠ 0) : strconv.digitChar d ≠ '0' := by
  unfold strconv.digitChar
  split <;> first | exact absurd rfl h | decide

theorem formatAux_acc (fuel n : Nat) (acc : GoString) (h : 0 < fuel) :
    strconv.formatAux fuel n acc = strconv.formatAux fuel n [] ++ acc := by
  induction fuel generalizing n acc with
  | zero => exact absurd h (Nat.lt_irrefl 0)
  | succ fuel ih =>
    simp only [strconv.formatAux]
    split
    · simp
    · next hn =>
      cases fuel with
      | zero => simp [strconv.formatAux]
      | succ k =>
        rw [ih (n / 10) (strconv.digitChar (n % 10) :: acc) (Nat.succ_pos k),
          ih (n / 10) [strconv.digitChar (n % 10)] (Nat.succ_pos k)]
        simp

theorem formatAux_step (fuel n : Nat) (h : n < fuel + 1) (hn : n / 10 ≠ 0) :
    strconv.formatAux (fuel + 1) n []
      = strconv.formatAux fuel (n / 10) [] ++ [strconv.digitChar (n % 10)] := by
  have hf : 0 < fuel := by
    rcases Nat.eq_zero_or_pos fuel with h0 | h0
    · subst h0
      have : n = 0 := by omega
      subst this
      simp at hn
    · exact h0
  simp only [strconv.formatAux, hn, if_false]
  exact formatAux_acc fuel (n / 10) _ hf

theorem parseAux_append (s t : GoString) (k : Nat) :
    strconv.parseAux (s ++ t) k = (strconv.parseAux s k).bind (strconv.parseAux t) := by
  induction s generalizing k with
  | nil => simp [strconv.parseAux]
  | cons c cs ih =>
    simp only [List.cons_append, strconv.parseAux]
    cases strconv.digitVal c with
    | none => simp
    | some d => exact ih _

theorem formatAux_spec (fuel n : Nat) (h : n < fuel) :
    strconv.parseAux (strconv.formatAux fuel n []) 0 = some n
    ∧ (∀ c ∈ strconv.formatAux fuel n [], c ∈ semver.numbers)
    ∧ (0 < n → ∃ c rest, strconv.formatAux fuel n [] = c :: rest ∧ c ≠ '0')
    ∧ (n = 0 → strconv.formatAux fuel n [] = ['0']) := by
  induction fuel generalizing n with
  | zero => exact absurd h (Nat.not_lt_zero n)
  | succ fuel ih =>
    by_cases hn : n / 10 = 0
    · have hlt : n < 10 := by omega
      have hmod : n % 10 = n := Nat.mod_eq_of_lt hlt
      have hf : strconv.formatAux (fuel + 1) n [] = [strconv.digitChar n] := by
        simp [strconv.formatAux, hn, hmod]
      rw [hf]
      refine ⟨?_, ?_, ?_, ?_⟩
      · simp [strconv.parseAux, digitVal_digitChar n hlt]
      · intro c hc
        rw [List.mem_singleton.mp hc]
        exact digitChar_mem n
      · intro hpos
        exact ⟨_, [], rfl, digitChar_ne_zero n (by omega)⟩
      · intro h0
        subst h0
        rfl
    · have hdiv : n / 10 < fuel := by omega
      obtain ⟨hp, hd, hh, _⟩ := ih (n / 10) hdiv
      rw [formatAux_step fuel n h hn]
      refine ⟨?_, ?_, ?_, ?_⟩
      · rw [parseAux_append, hp]
        simp only [Option.some_bind, strconv.parseAux,
          digitVal_digitChar (n % 10) (Nat.mod_lt n (by decide))]
        congr 1
        omega
      · intro c hc
        rcases List.mem_append.mp hc with hc | hc
        · exact hd c hc
        · rw [List.mem_singleton.mp hc]
          exact digitChar_mem _
      · intro _
        obtain ⟨c, rest, heq, hne⟩ := hh (by omega)
        exact ⟨c, rest ++ [strconv.digitChar (n % 10)], by rw [heq]; rfl, hne⟩
      · intro h0
        subst h0
        simp at hn

theorem FormatUint_numeral (n : Nat) : IsNumeral (strconv.FormatUint n) := by
  obtain ⟨_, hd, hh, h0⟩ := formatAux_spec (n + 1) n (Nat.lt_succ_self n)
  refine ⟨hd, ?_⟩
  rcases Nat.eq_zero_or_pos n with hz | hpos
  · exact Or.inl (h0 hz)
  · exact Or.inr (hh hpos)

theorem ParseUint_FormatUint (n : Nat) (h : n < 2 ^ 64) :
    strconv.ParseUint (strconv.FormatUint n) = some n := by
  obtain ⟨hp, _, _, _⟩ := formatAux_spec (n + 1) n (Nat.lt_succ_self n)
  have hne : strconv.FormatUint n ≠ [] := by
    rcases (FormatUint_numeral n).2 with h0 | ⟨c, rest, heq, _⟩
    · rw [h0]; simp
    · rw [heq]; simp
  unfold strconv.ParseUint
  rw [if_neg hne]
  show (match strconv.parseAux (strconv.formatAux (n + 1) n []) 0 with
    | some n => if n < 2 ^ 64 then some n else none
    | none => none) = some n
  rw [hp]
  exact if_pos h

/-! ## The tolerant parser on `v` followed by major.minor.patch -/

theorem numbers_plain : ∀ c ∈ semver.numbers,
    c ≠ '.' ∧ c ≠ '+' ∧ c ≠ '-' ∧ strings.IsSpace c = false := by
  decide

theorem Cut_of_not_mem (sep : Char) (a b : GoString) (h : sep ∉ a) :
    strings.Cut sep (a ++ sep :: b) = some (a, b) := by
  induction a with
  | nil => simp [strings.Cut]
  | cons c cs ih =>
    have hc : c ≠ sep := fun e => h (by simp [e])
    have hcs : sep ∉ cs := fun m => h (List.mem_cons_of_mem c m)
    simp [strings.Cut, hc, ih hcs]

theorem Cut_none (sep : Char) (a : GoString) (h : sep ∉ a) : strings.Cut sep a = none := by
  induction a with
  | nil => rfl
  | cons c cs ih =>
    have hc : c ≠ sep := fun e => h (by simp [e])
    have hcs : sep ∉ cs := fun m => h (List.mem_cons_of_mem c m)
    simp [strings.Cut, hc, ih hcs]

theorem IsNumeral.not_mem {s : GoString} (h : IsNumeral s) :
    '.' ∉ s ∧ '+' ∉ s ∧ '-' ∉ s :=
  ⟨fun m => (numbers_plain _ (h.1 _ m)).1 rfl,
   fun m => (numbers_plain _ (h.1 _ m)).2.1 rfl,
   fun m => (numbers_plain _ (h.1 _ m)).2.2.1 rfl⟩

theorem IsNumeral.ne_nil {s : GoString} (h : IsNumeral s) : s ≠ [] := by
  rcases h.2 with h0 | ⟨c, rest, heq, _⟩
  · rw [h0]; simp
  · rw [heq]; simp

theorem IsNumeral.containsOnly {s : GoString} (h : IsNumeral s) :
    semver.containsOnly s semver.numbers = true := by
  simp only [semver.containsOnly, List.all_eq_true]
  intro c hc
  simpa using h.1 c hc

theorem IsNumeral.hasLeadingZeroes {s : GoString} (h : IsNumeral s) :
    semver.hasLeadingZeroes s = false := by
  rcases h.2 with h0 | ⟨c, rest, heq, hne⟩
  · rw [h0]; rfl
  · rw [heq]
    cases rest with
    | nil => rfl
    | cons d ds => simp [semver.hasLeadingZeroes, hne]

theorem parseNumber_FormatUint (n : Nat) (h : n < 2 ^ 64) :
    semver.parseNumber (strconv.FormatUint n) = some n := by
  have hn := FormatUint_numeral n
  simp [semver.parseNumber, hn.containsOnly, hn.hasLeadingZeroes, ParseUint_FormatUint n h]

theorem TrimSpace_id (s : GoString) (c : Char) (hs : strings.IsSpace 'v' = false)
    (hc : strings.IsSpace c = false) :
    strings.TrimSpace ('v' :: (s ++ [c])) = 'v' :: (s ++ [c]) := by
  have h1 : ('v' :: (s ++ [c])).dropWhile strings.IsSpace = 'v' :: (s ++ [c]) := by
    simp [List.dropWhile, hs]
  have h2 : ('v' :: (s ++ [c])).reverse = c :: ('v' :: s).reverse := by simp
  unfold strings.TrimSpace
  rw [h1, h2]
  simp [List.dropWhile, hc]

theorem SplitN_three (x y z : GoString) (hx : '.' ∉ x) (hy : '.' ∉ y) :
    strings.SplitN (x ++ '.' :: (y ++ '.' :: z)) '.' 3 = [x, y, z] := by
  simp [strings.SplitN, Cut_of_not_mem '.' x _ hx, Cut_of_not_mem '.' y _ hy]

theorem Parse_numerals (x y z : GoString) (a b c : Nat)
    (hx : IsNumeral x) (hy : IsNumeral y) (hz : IsNumeral z)
    (ha : semver.parseNumber x = some a) (hb : semver.parseNumber y = some b)
    (hc : semver.parseNumber z = some c) :
    semver.Parse (x ++ '.' :: (y ++ '.' :: z)) = some ⟨a, b, c, [], []⟩ := by
  have hlen : (x ++ '.' :: (y ++ '.' :: z)).length ≠ 0 := by simp
  unfold semver.Parse
  rw [if_neg hlen, SplitN_three x y z hx.not_mem.1 hy.not_mem.1]
  simp only [ha, hb, Cut_none '+' z hz.not_mem.2.1, Cut_none '-' z hz.not_mem.2.2, hc]
  rfl

theorem ParseTolerant_numerals (x y z : GoString) (a b c : Nat)
    (hx : IsNumeral x) (hy : IsNumeral y) (hz : IsNumeral z)
    (ha : semver.parseNumber x = some a) (hb : semver.parseNumber y = some b)
    (hc : semver.parseNumber z = some c) :
    semver.ParseTolerant ('v' :: (x ++ '.' :: (y ++ '.' :: z))) = some ⟨a, b, c, [], []⟩ := by
  obtain ⟨zi, zl, hzl⟩ : ∃ zi zl, z = zi ++ [zl] := by
    rcases List.eq_nil_or_concat z with h | ⟨L, e, h⟩
    · exact absurd h hz.ne_nil
    · exact ⟨L, e, by rw [h, List.concat_eq_append]⟩
  have hsp : strings.IsSpace zl = false :=
    (numbers_plain zl (hz.1 zl (by rw [hzl]; simp))).2.2.2
  have htrim : strings.TrimSpace ('v' :: (x ++ '.' :: (y ++ '.' :: z)))
      = 'v' :: (x ++ '.' :: (y ++ '.' :: z)) := by
    have := TrimSpace_id (x ++ '.' :: (y ++ '.' :: zi)) zl (by decide) hsp
    simpa [hzl, List.append_assoc] using this
  have hpre : strings.TrimPrefix ('v' :: (x ++ '.' :: (y ++ '.' :: z))) ['v']
      = x ++ '.' :: (y ++ '.' :: z) := by
    simp [strings.TrimPrefix, strings.HasPrefix]
  unfold semver.ParseTolerant
  simp only [htrim, hpre, SplitN_three x y z hx.not_mem.1 hy.not_mem.1]
  simp only [List.length_cons, List.length_nil]
  exact Parse_numerals x y z a b c hx hy hz ha hb hc

theorem ParseTolerant_examples :
    semver.ParseTolerant "v01.2.3".toList = none
    ∧ semver.ParseTolerant "1.2".toList = some ⟨1, 2, 0, [], []⟩
    ∧ semver.ParseTolerant " v1.2.3-rc1+b5 ".toList
      = some ⟨1, 2, 3, [⟨"rc1".toList, 0, false⟩], ["b5".toList]⟩
    ∧ semver.ParseTolerant "1.2-rc1".toList = none := by
  decide

/-- The tolerant parser reads `v` followed by major.minor.patch of a version
without pre-release and build meta data back as that version. -/
theorem ParseTolerant_dotted (v : semver.Version) (hpre : v.Pre = []) (hbuild : v.Build = [])
    (hM : v.Major < 2 ^ 64) (hm : v.Minor < 2 ^ 64) (hp : v.Patch < 2 ^ 64) :
    semver.ParseTolerant ('v' :: v.String) = some v := by
  have hs : v.String = strconv.FormatUint v.Major
      ++ '.' :: (strconv.FormatUint v.Minor ++ '.' :: strconv.FormatUint v.Patch) := by
    simp [semver.Version.String, hpre, hbuild]
  rw [hs, ParseTolerant_numerals _ _ _ v.Major v.Minor v.Patch (FormatUint_numeral _)
    (FormatUint_numeral _) (FormatUint_numeral _) (parseNumber_FormatUint _ hM)
    (parseNumber_FormatUint _ hm) (parseNumber_FormatUint _ hp)]
  obtain ⟨M, m, p, pre, build⟩ := v
  simp only at hpre hbuild
  rw [hpre, hbuild]

/-! ## The current version -/

theorem mem_GetSortedMatchingTags (parseTolerant : GoString → Option semver.Version)
    (r : Repository) (pfx : GoString) (refs : List plumbing.Reference) (vt : VersionTag) :
    vt ∈ sortSlice tagLess (collectTags parseTolerant r pfx refs []) ↔
      vt.Tag ∈ annotatedTags r refs ∧ pfx <+: vt.Tag.Name
        ∧ parseTolerant (remainder pfx vt.Tag.Name) = some vt.Version := by
  rw [(sortSlice_perm _).mem_iff, collectTags_eq, List.nil_append]
  exact mem_keptRecords parseTolerant pfx _ vt

theorem main_version (w : World) (f : Flags) (plan : Plan) (h : main w f = .ok plan) :
    ∃ dir r tags, w.PlainOpen dir = .ok r
      ∧ GetSortedMatchingTags w.ParseTolerant r f.pfx = .ok tags
      ∧ plan.version = bump f.patch f.minor f.major (lastVersion tags) := by
  unfold main at h
  repeat' split at h
  all_goals first
    | (cases h; exact ⟨_, _, _, by assumption, by assumption, rfl⟩)
    | cases h

theorem main_ok (w : World) (f : Flags) (dir : GoString) (r : Repository)
    (tags : List VersionTag) (currentBranch branch : plumbing.Reference)
    (commit : plumbing.Hash)
    (hcheck : checkArgs f = none)
    (hdir : (if f.repo ≠ [] then Except.ok f.repo else w.Getwd) = .ok dir)
    (hopen : w.PlainOpen dir = .ok r)
    (hfetch : f.noFetch = true
      ∨ w.Execute dir ["git".toList, "fetch".toList, "--tags".toList] = none)
    (htags : GetSortedMatchingTags w.ParseTolerant r f.pfx = .ok tags)
    (hhead : r.Head = .ok currentBranch)
    (hsel : (selectsBranch w f currentBranch = true ∧ w.PromptForBranch r = .ok branch)
      ∨ (selectsBranch w f currentBranch = false ∧ branch = currentBranch))
    (hcommit : GetLastCommitForBranch r branch = (commit, none)) :
    main w f = .ok ⟨newTagName f.pfx (w.Short branch.Name)
        (bump f.patch f.minor f.major (lastVersion tags)), commit, w.Short branch.Name,
        bump f.patch f.minor f.major (lastVersion tags)⟩ := by
  have hf : (!f.noFetch
      && (w.Execute dir ["git".toList, "fetch".toList, "--tags".toList]).isSome) = false := by
    rcases hfetch with h | h
    · rw [h]; rfl
    · rw [h]; simp
  unfold main
  rw [hcheck]
  simp only [hdir, hopen, hf, htags, hhead, Bool.false_eq_true, if_false]
  rcases hsel with ⟨h1, h2⟩ | ⟨h1, h2⟩
  · have h1' : ((decide (w.Short currentBranch.Name ≠ "master".toList) && !f.noSelectBranch
        && !f.quiet) || f.alwaysSelectBranch) = true := h1
    rw [if_pos h1']
    simp only [h2, hcommit]
  · have h1' : ((decide (w.Short currentBranch.Name ≠ "master".toList) && !f.noSelectBranch
        && !f.quiet) || f.alwaysSelectBranch) = false := h1
    subst h2
    rw [h1']
    simp only [Bool.false_eq_true, if_false, hcommit]

theorem first_of_sorted (parseTolerant : GoString → Option semver.Version)
    (r : Repository) (pfx : GoString) (refs : List plumbing.Reference)
    (first : VersionTag) (rest : List VersionTag)
    (heq : sortSlice tagLess (collectTags parseTolerant r pfx refs []) = first :: rest) :
    lastVersion (sortSlice tagLess (collectTags parseTolerant r pfx refs [])) = first.Version
    ∧ first.Tag ∈ annotatedTags r refs ∧ pfx <+: first.Tag.Name
    ∧ parseTolerant (remainder pfx first.Tag.Name) = some first.Version
    ∧ ∀ t ∈ sortSlice tagLess (collectTags parseTolerant r pfx refs []),
        t.When ≤ first.When := by
  have hmem := (mem_GetSortedMatchingTags parseTolerant r pfx refs first).mp
    (by rw [heq]; exact List.mem_cons_self _ _)
  refine ⟨by rw [heq]; rfl, hmem.1, hmem.2.1, hmem.2.2, ?_⟩
  intro t ht
  have hd := sortSlice_descending (collectTags parseTolerant r pfx refs [])
  rw [heq] at hd ht
  rcases List.mem_cons.mp ht with hx | hx
  · rw [hx]
  · exact (List.pairwise_cons.mp hd).1 t hx

theorem sorted_of_no_match (parseTolerant : GoString → Option semver.Version)
    (r : Repository) (pfx : GoString) (refs : List plumbing.Reference)
    (hnil : (annotatedTags r refs).filterMap (keptRecord parseTolerant pfx) = []) :
    sortSlice tagLess (collectTags parseTolerant r pfx refs []) = [] := by
  have hperm := sortSlice_perm (collectTags parseTolerant r pfx refs [])
  rw [collectTags_eq, List.nil_append, hnil] at hperm
  have hempty := List.Perm.eq_nil hperm
  rw [collectTags_eq, List.nil_append, hnil, hempty]

/-- C5: whenever the argument check passes, the repository opens, the fetch
and the tag iteration succeed and the commit to tag is resolved, `main`
returns a plan whose version is the bump of `lastVersion` of the tags returned
by `GetSortedMatchingTags` and whose tag name is built from that version; when
tags are returned `lastVersion` is the version of the first one, which is a
matching tag whose tagger time is greater than or equal to that of every
returned tag; when no tag matched it is 0.0.0, so that `main` plans 0.0.1 for
a patch bump, 0.1.0 for a minor bump and 1.0.0 for a major bump; conversely
every plan `main` returns has such a version; and with the tags v2.0.0 made at
time 10 and v1.0.0 made at time 20 the current version is 1.0.0, although
2.0.0 is higher, and `main` with the patch flag plans v1.0.1. -/
theorem lastVersion_most_recent :
    (∀ (w : World) (f : Flags) (dir : GoString) (r : Repository)
        (refs : List plumbing.Reference) (currentBranch branch : plumbing.Reference)
        (commit : plumbing.Hash),
        checkArgs f = none →
        (if f.repo ≠ [] then Except.ok f.repo else w.Getwd) = .ok dir →
        w.PlainOpen dir = .ok r →
        (f.noFetch = true
          ∨ w.Execute dir ["git".toList, "fetch".toList, "--tags".toList] = none) →
        r.Tags = .ok ⟨refs, none⟩ →
        r.Head = .ok currentBranch →
        ((selectsBranch w f currentBranch = true ∧ w.PromptForBranch r = .ok branch)
          ∨ (selectsBranch w f currentBranch = false ∧ branch = currentBranch)) →
        GetLastCommitForBranch r branch = (commit, none) →
      ∃ tags plan, GetSortedMatchingTags w.ParseTolerant r f.pfx = .ok tags
        ∧ main w f = .ok plan
        ∧ plan.version = bump f.patch f.minor f.major (lastVersion tags)
        ∧ plan.newTagName = newTagName f.pfx (w.Short branch.Name) plan.version
        ∧ plan.commitToTag = commit
        ∧ (∀ first rest, tags = first :: rest →
            plan.version = bump f.patch f.minor f.major first.Version
            ∧ first.Tag ∈ annotatedTags r refs ∧ f.pfx <+: first.Tag.Name
            ∧ w.ParseTolerant (remainder f.pfx first.Tag.Name) = some first.Version
            ∧ ∀ t ∈ tags, t.When ≤ first.When)
        ∧ ((annotatedTags r refs).filterMap (keptRecord w.ParseTolerant f.pfx) = [] →
            tags = []
            ∧ plan.version = bump f.patch f.minor f.major semver.Version.zero))
    ∧ (∀ (w : World) (f : Flags) (plan : Plan), main w f = .ok plan →
      ∃ dir r tags, w.PlainOpen dir = .ok r
        ∧ GetSortedMatchingTags w.ParseTolerant r f.pfx = .ok tags
        ∧ plan.version = bump f.patch f.minor f.major (lastVersion tags))
    ∧ (∀ (parseTolerant : GoString → Option semver.Version) (r : Repository)
        (pfx : GoString) (refs : List plumbing.Reference), r.Tags = .ok ⟨refs, none⟩ →
      ∃ tags, GetSortedMatchingTags parseTolerant r pfx = .ok tags
        ∧ (∀ first rest, tags = first :: rest →
            lastVersion tags = first.Version
            ∧ first.Tag ∈ annotatedTags r refs ∧ pfx <+: first.Tag.Name
            ∧ parseTolerant (remainder pfx first.Tag.Name) = some first.Version
            ∧ ∀ t ∈ tags, t.When ≤ first.When)
        ∧ ((annotatedTags r refs).filterMap (keptRecord parseTolerant pfx) = [] →
            tags = [] ∧ lastVersion tags = semver.Version.zero
            ∧ bump true false false (lastVersion tags) = ⟨0, 0, 1, [], []⟩
            ∧ bump false true false (lastVersion tags) = ⟨0, 1, 0, [], []⟩
            ∧ bump false false true (lastVersion tags) = ⟨1, 0, 0, [], []⟩))
    ∧ (∃ tags, GetSortedMatchingTags semver.ParseTolerant
          (repoOfTags [tagAt "v2.0.0" 10, tagAt "v1.0.0" 20]) [] = .ok tags
        ∧ lastVersion tags = ⟨1, 0, 0, [], []⟩
        ∧ ∃ t ∈ tags, versionLt (lastVersion tags) t.Version)
    ∧ main (worldOf (repoOfTags [tagAt "v2.0.0" 10, tagAt "v1.0.0" 20]))
        { defaultFlags with patch := true }
      = .ok ⟨"v1.0.1".toList, 7, "master".toList, ⟨1, 0, 1, [], []⟩⟩
    ∧ main (worldOf emptyRepo) { defaultFlags with patch := true }
      = .ok ⟨"v0.0.1".toList, 7, "master".toList, ⟨0, 0, 1, [], []⟩⟩
    ∧ main (worldOf emptyRepo) { defaultFlags with minor := true }
      = .ok ⟨"v0.1.0".toList, 7, "master".toList, ⟨0, 1, 0, [], []⟩⟩
    ∧ main (worldOf emptyRepo) { defaultFlags with major := true }
      = .ok ⟨"v1.0.0".toList, 7, "master".toList, ⟨1, 0, 0, [], []⟩⟩ := by
  refine ⟨?_, main_version, ?_, ?_, rfl, rfl, rfl, rfl⟩
  · intro w f dir r refs currentBranch branch commit hcheck hdir hopen hfetch htags hhead
      hsel hcommit
    have hG := GetSortedMatchingTags_ok w.ParseTolerant r f.pfx refs htags
    refine ⟨_, _, hG,
      main_ok w f dir r _ currentBranch branch commit hcheck hdir hopen hfetch hG hhead hsel
        hcommit, rfl, rfl, rfl, ?_, ?_⟩
    · intro first rest heq
      have h := first_of_sorted w.ParseTolerant r f.pfx refs first rest heq
      exact ⟨by rw [← h.1], h.2.1, h.2.2.1, h.2.2.2.1, h.2.2.2.2⟩
    · intro hnil
      have h := sorted_of_no_match w.ParseTolerant r f.pfx refs hnil
      exact ⟨h, by rw [h]; rfl⟩
  · intro parseTolerant r pfx refs h
    refine ⟨_, GetSortedMatchingTags_ok parseTolerant r pfx refs h, ?_, ?_⟩
    · intro first rest heq
      exact first_of_sorted parseTolerant r pfx refs first rest heq
    · intro hnil
      rw [sorted_of_no_match parseTolerant r pfx refs hnil]
      exact ⟨rfl, rfl, by decide, by decide, by decide⟩
  · exact ⟨[⟨tagAt "v1.0.0" 20, ⟨1, 0, 0, [], []⟩⟩, ⟨tagAt "v2.0.0" 10, ⟨2, 0, 0, [], []⟩⟩],
      rfl, rfl, ⟨tagAt "v2.0.0" 10, ⟨2, 0, 0, [], []⟩⟩, by simp, by decide⟩

/-- C5, witness: with the tags v2.0.0 made at time 10 and v1.0.0 made at
time 20 all steps of `main` succeed, and with the patch flag it returns a plan
of version 1.0.1, the bump of the more recent 1.0.0. -/
theorem lastVersion_most_recent_witness :
    ∃ tags plan, GetSortedMatchingTags semver.ParseTolerant
        (repoOfTags [tagAt "v2.0.0" 10, tagAt "v1.0.0" 20]) [] = .ok tags
      ∧ main (worldOf (repoOfTags [tagAt "v2.0.0" 10, tagAt "v1.0.0" 20]))
          { defaultFlags with patch := true } = .ok plan
      ∧ plan.version = bump true false false (lastVersion tags)
      ∧ ∀ first rest, tags = first :: rest →
          plan.version = bump true false false first.Version :=
  (lastVersion_most_recent.1
      (worldOf (repoOfTags [tagAt "v2.0.0" 10, tagAt "v1.0.0" 20]))
      { defaultFlags with patch := true } "/work".toList
      (repoOfTags [tagAt "v2.0.0" 10, tagAt "v1.0.0" 20])
      ((List.range 2).map fun i => ⟨[], i⟩)
      ⟨"refs/heads/master".toList, 7⟩ ⟨"refs/heads/master".toList, 7⟩ 7
      (by decide) rfl rfl (Or.inr rfl) rfl rfl (Or.inr ⟨by decide, rfl⟩) rfl).imp
    fun _ h => h.imp fun _ h => ⟨h.1, h.2.1, h.2.2.1,
      fun first rest heq => (h.2.2.2.2.2.1 first rest heq).1⟩

/-! ## Round trip between tag naming and tag discovery -/

theorem remainder_newTagName (pfx : GoString) (v : semver.Version) :
    pfx <+: newTagName pfx "master".toList v
    ∧ remainder pfx (newTagName pfx "master".toList v) = 'v' :: v.String := by
  by_cases hp : pfx = []
  · subst hp
    exact ⟨List.nil_prefix, rfl⟩
  · have hn : newTagName pfx "master".toList v = pfx ++ '-' :: 'v' :: v.String := by
      simp [newTagName, hp]
    rw [hn]
    refine ⟨List.prefix_append _ _, ?_⟩
    simp [remainder, dropSeparator]

/-- C9: for every prefix, empty or not, and every version of 64-bit numbers
without pre-release and build meta data, an annotated tag that carries the
name `main` builds for that version on the branch master passes the filter of
`GetSortedMatchingTags` called with the same prefix, and the version recorded
for it is that version: the name has the prefix, what is handed to the parser
is "v" followed by the version's text, the parser returns the version, and
the record of the tag with that version is among the returned tags of every
repository that holds the tag. -/
theorem newTagName_roundtrip (pfx : GoString) (v : semver.Version)
    (hpre : v.Pre = []) (hbuild : v.Build = [])
    (hM : v.Major < 2 ^ 64) (hm : v.Minor < 2 ^ 64) (hp : v.Patch < 2 ^ 64)
    (tag : object.Tag) (hname : tag.Name = newTagName pfx "master".toList v) :
    strings.HasPrefix tag.Name pfx = true
    ∧ strings.TrimPrefix (tag.Name.drop pfx.length) ['-'] = 'v' :: v.String
    ∧ semver.ParseTolerant
        (strings.TrimPrefix (tag.Name.drop pfx.length) ['-']) = some v
    ∧ ∀ (r : Repository) (refs : List plumbing.Reference), r.Tags = .ok ⟨refs, none⟩ →
        tag ∈ annotatedTags r refs →
        ∃ tags, GetSortedMatchingTags semver.ParseTolerant r pfx = .ok tags
          ∧ (⟨tag, v⟩ : VersionTag) ∈ tags
          ∧ ∀ vt ∈ tags, vt.Tag = tag → vt.Version = v := by
  have hr := remainder_newTagName pfx v
  rw [← hname] at hr
  have hparse : semver.ParseTolerant (remainder pfx tag.Name) = some v := by
    rw [hr.2]
    exact ParseTolerant_dotted v hpre hbuild hM hm hp
  refine ⟨(HasPrefix_iff _ _).mpr hr.1, ?_, ?_, ?_⟩
  · rw [TrimPrefix_separator]
    exact hr.2
  · rw [TrimPrefix_separator]
    exact hparse
  · intro r refs h hmem
    refine ⟨_, GetSortedMatchingTags_ok semver.ParseTolerant r pfx refs h, ?_, ?_⟩
    · exact (mem_GetSortedMatchingTags semver.ParseTolerant r pfx refs ⟨tag, v⟩).mpr
        ⟨hmem, hr.1, hparse⟩
    · intro vt hvt heq
      have := ((mem_GetSortedMatchingTags semver.ParseTolerant r pfx refs vt).mp hvt).2.2
      rw [heq, hparse] at this
      exact (Option.some.inj this).symm

/-- C9, witness: the name built for 2.0.0 with prefix "rel" is "rel-v2.0.0",
and a repository holding a tag of that name returns it with version 2.0.0. -/
theorem newTagName_roundtrip_witness :
    (tagAt "rel-v2.0.0" 5).Name = newTagName "rel".toList "master".toList ⟨2, 0, 0, [], []⟩
    ∧ ∃ tags, GetSortedMatchingTags semver.ParseTolerant
          (repoOfTags [tagAt "rel-v2.0.0" 5]) "rel".toList = .ok tags
        ∧ (⟨tagAt "rel-v2.0.0" 5, ⟨2, 0, 0, [], []⟩⟩ : VersionTag) ∈ tags :=
  ⟨rfl,
   ((newTagName_roundtrip "rel".toList ⟨2, 0, 0, [], []⟩ rfl rfl (by decide) (by decide)
      (by decide) (tagAt "rel-v2.0.0" 5) rfl).2.2.2 (repoOfTags [tagAt "rel-v2.0.0" 5])
      ((List.range 1).map fun i => ⟨[], i⟩) rfl (by decide)).imp
      fun _ h => ⟨h.1, h.2.1⟩⟩

/-! ## Monotonicity of the bump -/

/-- C10: each of the three bumps applied alone to a version whose numbers are
all below 2^64 - 1 gives a version strictly greater in the lexicographic
order on (major, minor, patch); and there are matching tags, v1.0.1 made at
time 10 and v1.0.0 made at time 20, for which the patch bump computes 1.0.1,
the version of a tag that already exists. -/
theorem bump_increases_and_may_collide :
    (∀ v : semver.Version, v.Major < 2 ^ 64 - 1 → v.Minor < 2 ^ 64 - 1 →
        v.Patch < 2 ^ 64 - 1 →
      versionLt v (bump false false true v) ∧ versionLt v (bump false true false v)
        ∧ versionLt v (bump true false false v))
    ∧ (∃ tags, GetSortedMatchingTags semver.ParseTolerant
          (repoOfTags [tagAt "v1.0.1" 10, tagAt "v1.0.0" 20]) [] = .ok tags
        ∧ ∃ t ∈ tags, t.Version = bump true false false (lastVersion tags)) := by
  refine ⟨?_, ?_⟩
  · intro v hM hm hp
    norm_num at hM hm hp
    have key : ∀ n : Nat, n < 18446744073709551615 → n < (n + 1) % 18446744073709551616 := by
      intro n hn
      omega
    refine ⟨?_, ?_, ?_⟩
    · exact Or.inl (by simpa [bump, incr] using key _ hM)
    · exact Or.inr ⟨by simp [bump], Or.inl (by simpa [bump, incr] using key _ hm)⟩
    · exact Or.inr ⟨by simp [bump], Or.inr ⟨by simp [bump],
        by simpa [bump, incr] using key _ hp⟩⟩
  · exact ⟨[⟨tagAt "v1.0.0" 20, ⟨1, 0, 0, [], []⟩⟩, ⟨tagAt "v1.0.1" 10, ⟨1, 0, 1, [], []⟩⟩],
      rfl, ⟨tagAt "v1.0.1" 10, ⟨1, 0, 1, [], []⟩⟩, by simp, by decide⟩

/-- C10, witness: the three bumps of 1.2.3 are greater than 1.2.3. -/
theorem bump_increases_and_may_collide_witness :
    versionLt ⟨1, 2, 3, [], []⟩ (bump false false true ⟨1, 2, 3, [], []⟩)
    ∧ versionLt ⟨1, 2, 3, [], []⟩ (bump false true false ⟨1, 2, 3, [], []⟩)
    ∧ versionLt ⟨1, 2, 3, [], []⟩ (bump true false false ⟨1, 2, 3, [], []⟩) :=
  bump_increases_and_may_collide.1 ⟨1, 2, 3, [], []⟩ (by decide) (by decide) (by decide)

end Semvertag
